import Mathlib

/-!
Verification of the status-partitioned light-block store
(`light-client/src/store/sled.rs` and `light-client/src/store/sled/utils.rs`).

The on-disk engine (the external `sled` crate) is modelled as an ordered
association list from key bytes to value bytes, together with an explicit
fault oracle (`List Bool`): each engine operation consumes one entry of the
oracle and fails when that entry is `true`; an empty oracle means every
operation succeeds.  The CBOR integer codec used for `Height` keys follows
the canonical minimal-length encoding produced by `serde_cbor` for `u64`.
-/

/-- Byte strings, as lists of naturals (each byte is a value `< 256` for
every string this development produces). -/
abbrev Bytes := List Nat

/-- Strict byte-lexicographic order on byte strings, the order the `sled`
engine keeps its keys in (Rust slice ordering: elementwise, with a proper
prefix smaller than the longer string). -/
def bytesLt : Bytes → Bytes → Bool
  | [], [] => false
  | [], _ :: _ => true
  | _ :: _, [] => false
  | a :: as, b :: bs => if a < b then true else if b < a then false else bytesLt as bs

/-- Big-endian base-256 digits of `v`, padded/truncated to exactly `w` bytes. -/
def beBytes : Nat → Nat → Bytes
  | 0, _ => []
  | w + 1, v => beBytes w (v / 256) ++ [v % 256]

/-- Read back a big-endian base-256 digit string. -/
def fromBE (l : Bytes) : Nat := l.foldl (fun a d => a * 256 + d) 0

/-- Canonical CBOR encoding of an unsigned integer (major type 0, minimal
length), as produced by `serde_cbor::to_vec` for the `u64` height keys. -/
def cborNat (n : Nat) : Bytes :=
  if n < 24 then [n]
  else if n < 256 then [24, n]
  else if n < 65536 then 25 :: beBytes 2 n
  else if n < 4294967296 then 26 :: beBytes 4 n
  else 27 :: beBytes 8 n

/-- Read a `w`-byte big-endian argument from the front of a byte string. -/
def parseArg (w : Nat) (r : Bytes) : Option (Nat × Bytes) :=
  if r.length < w then none else some (fromBE (r.take w), r.drop w)

/-- Parse a CBOR unsigned integer from the front of a byte string, returning
the value and the remaining bytes; `none` on malformed input. -/
def parseNat : Bytes → Option (Nat × Bytes)
  | [] => none
  | b :: r =>
    if b < 24 then some (b, r)
    else if b = 24 then parseArg 1 r
    else if b = 25 then parseArg 2 r
    else if b = 26 then parseArg 4 r
    else if b = 27 then parseArg 8 r
    else none

/-- Modelled from the spec: a light block is an opaque serializable aggregate
carrying its height; the store never interprets it beyond `height()`.  The
`LightBlock` type itself is declared outside the provided sources, so it is
modelled as a height together with opaque associated data. -/
structure LightBlock where
  height : Nat
  payload : Nat
deriving DecidableEq, Repr

/-- Modelled from the spec: the canonical binary encoding of a light block
value (the value side of each table row). -/
def encodeLB (b : LightBlock) : Bytes := cborNat b.height ++ cborNat b.payload

/-- Modelled from the spec: decoding of stored value bytes back into a light
block; fails (`none`) on bytes that are not a valid encoding. -/
def decodeLB (bs : Bytes) : Option LightBlock :=
  match parseNat bs with
  | none => none
  | some (h, r) =>
    match parseNat r with
    | none => none
    | some (p, r₂) => if r₂ = [] then some ⟨h, p⟩ else none

/-- `crate::errors::Error`: every storage failure collapses into the single
`ErrorKind::Store` kind, carrying its cause. -/
inductive Error where
  | store (cause : String)
deriving DecidableEq, Repr

/-- Pop the next entry of the engine fault oracle; an exhausted oracle means
the operation succeeds. -/
def takeFault : List Bool → Bool × List Bool
  | [] => (false, [])
  | f :: fs => (f, fs)

/-- Model of a `sled::Tree`: an association list from key bytes to value
bytes, kept sorted by `bytesLt` on keys (§2 of the development header). -/
abbrev Sled.Tree := List (Bytes × Bytes)

/-- Engine point lookup: first binding of the key, if any. -/
def treeGet : Sled.Tree → Bytes → Option Bytes
  | [], _ => none
  | kv :: rest, k => if kv.1 = k then some kv.2 else treeGet rest k

/-- Engine insertion: order-preserving insert, overwriting an existing
binding of the same key. -/
def treeInsert : Sled.Tree → Bytes → Bytes → Sled.Tree
  | [], k, v => [(k, v)]
  | kv :: rest, k, v =>
    if bytesLt k kv.1 then (k, v) :: kv :: rest
    else if k = kv.1 then (k, v) :: rest
    else kv :: treeInsert rest k v

/-- Engine removal: drops every binding of the key (at most one on a sorted
tree). -/
def treeRemove : Sled.Tree → Bytes → Sled.Tree
  | [], _ => []
  | kv :: rest, k => if kv.1 = k then treeRemove rest k else kv :: treeRemove rest k

namespace KeyValueDb

/-- `KeyValueDb::get`: encode the key, read the engine, decode the value;
an engine fault or a value that fails to decode is a store error. -/
def get (t : Sled.Tree) (fs : List Bool) (key : Nat) :
    Except Error (Option LightBlock) × List Bool :=
  let keyBytes := cborNat key
  let (f, fs) := takeFault fs
  if f then (Except.error (Error.store "engine"), fs)
  else
    match treeGet t keyBytes with
    | some bytes =>
      match decodeLB bytes with
      | some value => (Except.ok (some value), fs)
      | none => (Except.error (Error.store "decode"), fs)
    | none => (Except.ok none, fs)

/-- `KeyValueDb::insert`: encode key and value, then engine insert;
unconditionally overwrites. -/
def insert (t : Sled.Tree) (fs : List Bool) (key : Nat) (value : LightBlock) :
    Except Error Unit × Sled.Tree × List Bool :=
  let keyBytes := cborNat key
  let valueBytes := encodeLB value
  let (f, fs) := takeFault fs
  if f then (Except.error (Error.store "engine"), t, fs)
  else (Except.ok (), treeInsert t keyBytes valueBytes, fs)

/-- `KeyValueDb::remove`: encode the key, then engine remove; absence of the
key is not an error. -/
def remove (t : Sled.Tree) (fs : List Bool) (key : Nat) :
    Except Error Unit × Sled.Tree × List Bool :=
  let keyBytes := cborNat key
  let (f, fs) := takeFault fs
  if f then (Except.error (Error.store "engine"), t, fs)
  else (Except.ok (), treeRemove t keyBytes, fs)

/-- `KeyValueDb::iter`: scan the rows in engine (key-byte) order, decode each
value, and silently drop the rows whose value bytes fail to decode. -/
def iter (t : Sled.Tree) : List LightBlock :=
  (t.map (fun kv => decodeLB kv.2)).reduceOption

end KeyValueDb

/-- Modelled from the spec: the closed status set of the light store; the
`Status` enum is declared outside the provided sources. -/
inductive Status where
  | unverified
  | verified
  | trusted
  | failed
deriving DecidableEq, Repr

/-- Modelled from the spec: `Status::iter()` enumerates all four statuses
(declared outside the provided sources). -/
def Status.iter : List Status := [.unverified, .verified, .trusted, .failed]

/-- `SledStore`: four key/value tables, one per status, sharing one physical
database. -/
structure SledStore where
  unverified_db : Sled.Tree
  verified_db : Sled.Tree
  trusted_db : Sled.Tree
  failed_db : Sled.Tree
deriving DecidableEq, Repr

/-- `SledStore::new` on a fresh database: all four tables empty. -/
def SledStore.new : SledStore := ⟨[], [], [], []⟩

/-- `SledStore::db`: the table that backs the given status. -/
def SledStore.db (st : SledStore) : Status → Sled.Tree
  | .unverified => st.unverified_db
  | .verified => st.verified_db
  | .trusted => st.trusted_db
  | .failed => st.failed_db

/-- State-passing counterpart of mutating the table selected by `db` in
place (Rust takes `&mut self`). -/
def SledStore.setDb (st : SledStore) : Status → Sled.Tree → SledStore
  | .unverified, t => { st with unverified_db := t }
  | .verified, t => { st with verified_db := t }
  | .trusted, t => { st with trusted_db := t }
  | .failed, t => { st with failed_db := t }

/-- `SledStore::get` (`LightStore` impl): `self.db(status).get(&height).ok().flatten()`. -/
def SledStore.get (st : SledStore) (fs : List Bool) (height : Nat) (status : Status) :
    Option LightBlock × List Bool :=
  let (r, fs) := KeyValueDb.get (st.db status) fs height
  (r.toOption.join, fs)

/-- `SledStore::update`: remove the block's height from every other status
table (each result discarded by `.ok()`), then insert into the target table. -/
def SledStore.update (st : SledStore) (fs : List Bool) (light_block : LightBlock)
    (status : Status) : SledStore × List Bool :=
  let height := light_block.height
  let (st, fs) := Status.iter.foldl
    (fun acc other =>
      if status ≠ other then
        let (_, t, fs) := KeyValueDb.remove (acc.1.db other) acc.2 height
        (acc.1.setDb other t, fs)
      else acc)
    (st, fs)
  let (_, t, fs) := KeyValueDb.insert (st.db status) fs height light_block
  (st.setDb status t, fs)

/-- `SledStore::insert`: insert into the target status table only, discarding
any error with `.ok()`. -/
def SledStore.insert (st : SledStore) (fs : List Bool) (light_block : LightBlock)
    (status : Status) : SledStore × List Bool :=
  let (_, t, fs) := KeyValueDb.insert (st.db status) fs light_block.height light_block
  (st.setDb status t, fs)

/-- `SledStore::remove`: remove from the target status table only, discarding
any error with `.ok()`. -/
def SledStore.remove (st : SledStore) (fs : List Bool) (height : Nat)
    (status : Status) : SledStore × List Bool :=
  let (_, t, fs) := KeyValueDb.remove (st.db status) fs height
  (st.setDb status t, fs)

/-- One step of `Iterator::max_by` with the height comparator used by
`SledStore::latest`: the later element wins a tie. -/
def maxStep (acc : Option LightBlock) (x : LightBlock) : Option LightBlock :=
  match acc with
  | none => some x
  | some m => if x.height < m.height then some m else some x

/-- `Iterator::max_by` with the height comparator used by `SledStore::latest`. -/
def maxByHeight (l : List LightBlock) : Option LightBlock :=
  l.foldl maxStep none

/-- `SledStore::latest`: scan the status table and keep the maximum-height
block. -/
def SledStore.latest (st : SledStore) (status : Status) : Option LightBlock :=
  maxByHeight (KeyValueDb.iter (st.db status))

/-- `SledStore::all`: the sequence of decodable values of the status table. -/
def SledStore.all (st : SledStore) (status : Status) : List LightBlock :=
  KeyValueDb.iter (st.db status)


/-! ### Properties of the byte-lexicographic order -/

theorem bytesLt_irrefl : ∀ a : Bytes, bytesLt a a = false := by
  intro a
  induction a with
  | nil => rfl
  | cons x xs ih => simp [bytesLt, ih]

theorem bytesLt_cons_iff {x y : Nat} {xs ys : Bytes} :
    bytesLt (x :: xs) (y :: ys) = true ↔ x < y ∨ (x = y ∧ bytesLt xs ys = true) := by
  simp only [bytesLt]
  by_cases h1 : x < y
  · simp [h1]
  · by_cases h2 : y < x
    · have hne : x ≠ y := by omega
      simp [h1, h2, hne]
    · have h3 : x = y := by omega
      simp [h1, h2, h3]

theorem bytesLt_trans {a b c : Bytes} (hab : bytesLt a b = true)
    (hbc : bytesLt b c = true) : bytesLt a c = true := by
  induction a generalizing b c with
  | nil =>
    cases c with
    | nil =>
      cases b with
      | nil => exact hab
      | cons y ys => simp [bytesLt] at hbc
    | cons z zs => simp [bytesLt]
  | cons x xs ih =>
    cases b with
    | nil => simp [bytesLt] at hab
    | cons y ys =>
      cases c with
      | nil => simp [bytesLt] at hbc
      | cons z zs =>
        rw [bytesLt_cons_iff] at hab hbc ⊢
        rcases hab with hab | ⟨hab, hab'⟩ <;> rcases hbc with hbc | ⟨hbc, hbc'⟩
        · exact Or.inl (by omega)
        · exact Or.inl (by omega)
        · exact Or.inl (by omega)
        · exact Or.inr ⟨by omega, ih hab' hbc'⟩

theorem bytesLt_total {a b : Bytes} (hab : bytesLt a b = false)
    (hba : bytesLt b a = false) : a = b := by
  induction a generalizing b with
  | nil =>
    cases b with
    | nil => rfl
    | cons y ys => simp [bytesLt] at hab
  | cons x xs ih =>
    cases b with
    | nil => simp [bytesLt] at hba
    | cons y ys =>
      have h1 : ¬(x < y ∨ (x = y ∧ bytesLt xs ys = true)) := by
        rw [← bytesLt_cons_iff]
        simp [hab]
      have h2 : ¬(y < x ∨ (y = x ∧ bytesLt ys xs = true)) := by
        rw [← bytesLt_cons_iff]
        simp [hba]
      push_neg at h1 h2
      have hxy : x = y := by omega
      subst hxy
      have e1 : bytesLt xs ys = false := by
        cases hb : bytesLt xs ys
        · rfl
        · exact absurd hb (h1.2 rfl)
      have e2 : bytesLt ys xs = false := by
        cases hb : bytesLt ys xs
        · rfl
        · exact absurd hb (h2.2 rfl)
      rw [ih e1 e2]

/-! ### Properties of the engine operations -/

theorem treeGet_insert_self (t : Sled.Tree) (k v : Bytes) :
    treeGet (treeInsert t k v) k = some v := by
  induction t with
  | nil => simp [treeInsert, treeGet]
  | cons kv rest ih =>
    by_cases h2 : k = kv.1
    · subst h2
      simp [treeInsert, bytesLt_irrefl, treeGet]
    · by_cases h1 : bytesLt k kv.1 = true
      · simp [treeInsert, h1, treeGet]
      · simp [treeInsert, h1, h2, treeGet, Ne.symm h2, ih]

theorem treeGet_insert_of_ne (t : Sled.Tree) {k k₂ : Bytes} (v : Bytes)
    (h : k₂ ≠ k) : treeGet (treeInsert t k v) k₂ = treeGet t k₂ := by
  induction t with
  | nil => simp [treeInsert, treeGet, Ne.symm h]
  | cons kv rest ih =>
    by_cases h2 : k = kv.1
    · subst h2
      simp [treeInsert, bytesLt_irrefl, treeGet, Ne.symm h]
    · by_cases h1 : bytesLt k kv.1 = true
      · simp [treeInsert, h1, treeGet, Ne.symm h]
      · simp [treeInsert, h1, h2, treeGet, ih]

theorem treeGet_remove_self (t : Sled.Tree) (k : Bytes) :
    treeGet (treeRemove t k) k = none := by
  induction t with
  | nil => simp [treeRemove, treeGet]
  | cons kv rest ih =>
    by_cases h1 : kv.1 = k
    · simp [treeRemove, h1, ih]
    · simp [treeRemove, h1, treeGet, ih]

theorem treeGet_remove_of_ne (t : Sled.Tree) {k k₂ : Bytes} (h : k₂ ≠ k) :
    treeGet (treeRemove t k) k₂ = treeGet t k₂ := by
  induction t with
  | nil => simp [treeRemove]
  | cons kv rest ih =>
    by_cases h1 : kv.1 = k
    · simp [treeRemove, h1, treeGet, Ne.symm h, ih]
    · simp [treeRemove, h1, treeGet, ih]

theorem treeRemove_of_absent {t : Sled.Tree} {k : Bytes}
    (h : treeGet t k = none) : treeRemove t k = t := by
  induction t with
  | nil => rfl
  | cons kv rest ih =>
    simp only [treeGet] at h
    by_cases h1 : kv.1 = k
    · simp [h1] at h
    · simp only [h1, if_false] at h
      simp [treeRemove, h1, ih h]

theorem mem_treeInsert {t : Sled.Tree} {k v : Bytes} {x : Bytes × Bytes}
    (h : x ∈ treeInsert t k v) : x = (k, v) ∨ x ∈ t := by
  induction t with
  | nil => simpa [treeInsert] using h
  | cons kv rest ih =>
    by_cases h2 : k = kv.1
    · subst h2
      have e : treeInsert (kv :: rest) kv.1 v = (kv.1, v) :: rest := by
        simp [treeInsert, bytesLt_irrefl]
      rw [e] at h
      rcases List.mem_cons.mp h with h | h
      · exact Or.inl (by simp [h])
      · exact Or.inr (List.mem_cons_of_mem _ h)
    · by_cases h1 : bytesLt k kv.1 = true
      · simp only [treeInsert, h1, if_true] at h
        rcases List.mem_cons.mp h with h | h
        · exact Or.inl h
        · exact Or.inr h
      · simp only [treeInsert, h1, h2, if_false, Bool.false_eq_true] at h
        rcases List.mem_cons.mp h with h | h
        · exact Or.inr (by simp [h])
        · rcases ih h with h | h
          · exact Or.inl h
          · exact Or.inr (List.mem_cons_of_mem _ h)

theorem treeRemove_sublist (t : Sled.Tree) (k : Bytes) :
    (treeRemove t k).Sublist t := by
  induction t with
  | nil => simp [treeRemove]
  | cons kv rest ih =>
    by_cases h1 : kv.1 = k
    · simp only [treeRemove, h1, if_pos rfl]
      exact ih.cons _
    · simp only [treeRemove, h1, if_false]
      exact ih.cons₂ _

/-- The store invariant of a `sled::Tree`: rows are strictly ascending in the
byte-lexicographic order of their keys. -/
def SortedTree (t : Sled.Tree) : Prop :=
  t.Pairwise (fun kv₁ kv₂ => bytesLt kv₁.1 kv₂.1 = true)

theorem sortedTree_nil : SortedTree [] := List.Pairwise.nil

theorem SortedTree.insert {t : Sled.Tree} (k v : Bytes) (h : SortedTree t) :
    SortedTree (treeInsert t k v) := by
  unfold SortedTree at *
  revert h
  induction t with
  | nil =>
    intro h
    simp [treeInsert]
  | cons kv rest ih =>
    intro h
    rcases List.pairwise_cons.mp h with ⟨hhead, htail⟩
    by_cases h2 : k = kv.1
    · subst h2
      have e : treeInsert (kv :: rest) kv.1 v = (kv.1, v) :: rest := by
        simp [treeInsert, bytesLt_irrefl]
      rw [e]
      exact List.pairwise_cons.mpr ⟨hhead, htail⟩
    · by_cases h1 : bytesLt k kv.1 = true
      · have e : treeInsert (kv :: rest) k v = (k, v) :: kv :: rest := by
          simp [treeInsert, h1]
        rw [e]
        refine List.pairwise_cons.mpr ⟨?_, h⟩
        intro x hx
        rcases List.mem_cons.mp hx with hx | hx
        · rw [hx]
          exact h1
        · exact bytesLt_trans h1 (hhead x hx)
      · have e : treeInsert (kv :: rest) k v = kv :: treeInsert rest k v := by
          simp [treeInsert, h1, h2]
        rw [e]
        refine List.pairwise_cons.mpr ⟨?_, ih htail⟩
        intro x hx
        rcases mem_treeInsert hx with hx | hx
        · have h3 : bytesLt k kv.1 = false := by
            cases hb : bytesLt k kv.1
            · rfl
            · exact absurd hb h1
          cases hb : bytesLt kv.1 k with
          | false => exact absurd (bytesLt_total h3 hb) h2
          | true =>
            rw [hx]
            exact hb
        · exact hhead x hx

theorem SortedTree.remove {t : Sled.Tree} (k : Bytes) (h : SortedTree t) :
    SortedTree (treeRemove t k) :=
  List.Pairwise.sublist (treeRemove_sublist t k) h

/-! ### Properties of the CBOR integer codec -/

theorem fromBE_append (l : Bytes) (d : Nat) :
    fromBE (l ++ [d]) = fromBE l * 256 + d := by
  simp [fromBE, List.foldl_append]

theorem beBytes_length (w n : Nat) : (beBytes w n).length = w := by
  induction w generalizing n with
  | zero => rfl
  | succ w ih => simp [beBytes, ih]

theorem fromBE_beBytes (w n : Nat) : fromBE (beBytes w n) = n % 256 ^ w := by
  induction w generalizing n with
  | zero => simp [beBytes, fromBE, Nat.mod_one]
  | succ w ih =>
    show fromBE (beBytes w (n / 256) ++ [n % 256]) = n % 256 ^ (w + 1)
    rw [fromBE_append, ih, pow_succ, mul_comm (256 ^ w) 256, Nat.mod_mul]
    ring

theorem parseArg_append {w n : Nat} (r : Bytes) (hn : n < 256 ^ w) :
    parseArg w (beBytes w n ++ r) = some (n, r) := by
  have hlen : (beBytes w n).length = w := beBytes_length w n
  have htake : (beBytes w n ++ r).take w = beBytes w n := List.take_left' hlen
  have hdrop : (beBytes w n ++ r).drop w = r := List.drop_left' hlen
  have hnl : ¬((beBytes w n ++ r).length < w) := by
    rw [List.length_append, hlen]
    omega
  rw [parseArg, if_neg hnl, htake, hdrop, fromBE_beBytes, Nat.mod_eq_of_lt hn]

theorem parseNat_cborNat {n : Nat} (hn : n < 2 ^ 64) (r : Bytes) :
    parseNat (cborNat n ++ r) = some (n, r) := by
  unfold cborNat
  split_ifs with h1 h2 h3 h4
  · simp [parseNat, h1]
  · have e : ([24, n] : Bytes) ++ r = 24 :: (beBytes 1 n ++ r) := by
      simp [beBytes, Nat.mod_eq_of_lt h2]
    rw [e]
    have : parseArg 1 (beBytes 1 n ++ r) = some (n, r) :=
      parseArg_append r (by simpa using h2)
    simp [parseNat, this]
  · have e : (25 :: beBytes 2 n) ++ r = 25 :: (beBytes 2 n ++ r) := by simp
    rw [e]
    have : parseArg 2 (beBytes 2 n ++ r) = some (n, r) :=
      parseArg_append r (by norm_num at h3 ⊢; omega)
    simp [parseNat, this]
  · have e : (26 :: beBytes 4 n) ++ r = 26 :: (beBytes 4 n ++ r) := by simp
    rw [e]
    have : parseArg 4 (beBytes 4 n ++ r) = some (n, r) :=
      parseArg_append r (by norm_num at h4 ⊢; omega)
    simp [parseNat, this]
  · have e : (27 :: beBytes 8 n) ++ r = 27 :: (beBytes 8 n ++ r) := by simp
    rw [e]
    have : parseArg 8 (beBytes 8 n ++ r) = some (n, r) :=
      parseArg_append r (by norm_num at hn ⊢; omega)
    simp [parseNat, this]

theorem cborNat_inj {a b : Nat} (ha : a < 2 ^ 64) (hb : b < 2 ^ 64)
    (h : cborNat a = cborNat b) : a = b := by
  have pa := parseNat_cborNat ha ([] : Bytes)
  have pb := parseNat_cborNat hb ([] : Bytes)
  rw [h] at pa
  rw [pa] at pb
  injection pb with pb'
  exact congrArg Prod.fst pb'

theorem decodeLB_encodeLB {b : LightBlock} (hh : b.height < 2 ^ 64)
    (hp : b.payload < 2 ^ 64) : decodeLB (encodeLB b) = some b := by
  have h2 : parseNat (cborNat b.payload) = some (b.payload, []) := by
    simpa using parseNat_cborNat hp []
  simp [decodeLB, encodeLB, parseNat_cborNat hh, h2]

/-! ### Properties of the maximum-by-height scan -/

theorem foldl_maxStep_some {l : List LightBlock} {m : LightBlock} :
    ∀ b, l.foldl maxStep (some m) = some b → b = m ∨ b ∈ l := by
  induction l generalizing m with
  | nil =>
    intro b hb
    injection hb with hb
    exact Or.inl hb.symm
  | cons x xs ih =>
    intro b hb
    by_cases hx : x.height < m.height
    · rw [show List.foldl maxStep (some m) (x :: xs) = List.foldl maxStep (some m) xs by
        simp [maxStep, hx]] at hb
      rcases ih b hb with h | h
      · exact Or.inl h
      · exact Or.inr (List.mem_cons_of_mem _ h)
    · rw [show List.foldl maxStep (some m) (x :: xs) = List.foldl maxStep (some x) xs by
        simp [maxStep, hx]] at hb
      rcases ih b hb with h | h
      · exact Or.inr (by simp [h])
      · exact Or.inr (List.mem_cons_of_mem _ h)

theorem foldl_maxStep_le {l : List LightBlock} {m b : LightBlock}
    (hb : l.foldl maxStep (some m) = some b) :
    m.height ≤ b.height ∧ ∀ x ∈ l, x.height ≤ b.height := by
  induction l generalizing m with
  | nil =>
    injection hb with hb
    subst hb
    exact ⟨Nat.le_refl _, by simp⟩
  | cons x xs ih =>
    by_cases hx : x.height < m.height
    · rw [show List.foldl maxStep (some m) (x :: xs) = List.foldl maxStep (some m) xs by
        simp [maxStep, hx]] at hb
      rcases ih hb with ⟨h1, h2⟩
      refine ⟨h1, ?_⟩
      intro y hy
      rcases List.mem_cons.mp hy with hy | hy
      · rw [hy]
        omega
      · exact h2 y hy
    · rw [show List.foldl maxStep (some m) (x :: xs) = List.foldl maxStep (some x) xs by
        simp [maxStep, hx]] at hb
      rcases ih hb with ⟨h1, h2⟩
      refine ⟨by omega, ?_⟩
      intro y hy
      rcases List.mem_cons.mp hy with hy | hy
      · rw [hy]
        exact h1
      · exact h2 y hy

theorem foldl_maxStep_isSome {l : List LightBlock} {m : LightBlock} :
    (l.foldl maxStep (some m)).isSome = true := by
  induction l generalizing m with
  | nil => rfl
  | cons x xs ih =>
    by_cases hx : x.height < m.height <;> simp [maxStep, hx] <;> exact ih

theorem maxByHeight_eq_none_iff {l : List LightBlock} :
    maxByHeight l = none ↔ l = [] := by
  cases l with
  | nil => simp [maxByHeight]
  | cons x xs =>
    simp only [maxByHeight, List.foldl_cons, maxStep]
    constructor
    · intro h
      have := foldl_maxStep_isSome (l := xs) (m := x)
      rw [h] at this
      simp at this
    · intro h
      simp at h

theorem maxByHeight_mem {l : List LightBlock} {b : LightBlock}
    (h : maxByHeight l = some b) : b ∈ l := by
  cases l with
  | nil => simp [maxByHeight] at h
  | cons x xs =>
    simp only [maxByHeight, List.foldl_cons, maxStep] at h
    rcases foldl_maxStep_some b h with h | h
    · simp [h]
    · exact List.mem_cons_of_mem _ h

theorem maxByHeight_le {l : List LightBlock} {b : LightBlock}
    (h : maxByHeight l = some b) : ∀ x ∈ l, x.height ≤ b.height := by
  cases l with
  | nil => simp [maxByHeight] at h
  | cons x xs =>
    simp only [maxByHeight, List.foldl_cons, maxStep] at h
    rcases foldl_maxStep_le h with ⟨h1, h2⟩
    intro y hy
    rcases List.mem_cons.mp hy with hy | hy
    · rw [hy]
      exact h1
    · exact h2 y hy

/-! ### Properties of the typed-table scan -/

theorem kvIter_cons_none {kv : Bytes × Bytes} {t : Sled.Tree}
    (h : decodeLB kv.2 = none) :
    KeyValueDb.iter (kv :: t) = KeyValueDb.iter t := by
  simp [KeyValueDb.iter, h, List.reduceOption_cons_of_none]

theorem kvIter_cons_some {kv : Bytes × Bytes} {t : Sled.Tree} {b : LightBlock}
    (h : decodeLB kv.2 = some b) :
    KeyValueDb.iter (kv :: t) = b :: KeyValueDb.iter t := by
  simp [KeyValueDb.iter, h, List.reduceOption_cons_of_some]

theorem kvIter_append (t₁ t₂ : Sled.Tree) :
    KeyValueDb.iter (t₁ ++ t₂) = KeyValueDb.iter t₁ ++ KeyValueDb.iter t₂ := by
  simp [KeyValueDb.iter, List.reduceOption_append]

/-- The scan of a table paired with the key each yielded value was stored
under: the rows whose value decodes, in table order. -/
def iterRows (t : Sled.Tree) : List (Bytes × LightBlock) :=
  t.filterMap (fun kv => (decodeLB kv.2).map (fun v => (kv.1, v)))

theorem iterRows_keys_sublist (t : Sled.Tree) :
    ((iterRows t).map Prod.fst).Sublist (t.map Prod.fst) := by
  induction t with
  | nil => simp [iterRows]
  | cons kv rest ih =>
    cases hd : decodeLB kv.2 with
    | none =>
      simp only [iterRows, List.filterMap_cons, hd, Option.map_none']
      exact ih.cons _
    | some b =>
      simp only [iterRows, List.filterMap_cons, hd, Option.map_some', List.map_cons]
      exact ih.cons₂ _

theorem kvIter_eq_iterRows (t : Sled.Tree) :
    KeyValueDb.iter t = (iterRows t).map Prod.snd := by
  induction t with
  | nil => simp [KeyValueDb.iter, iterRows]
  | cons kv rest ih =>
    cases hd : decodeLB kv.2 with
    | none =>
      rw [kvIter_cons_none hd]
      simp only [iterRows, List.filterMap_cons, hd, Option.map_none']
      exact ih
    | some b =>
      rw [kvIter_cons_some hd]
      simp only [iterRows, List.filterMap_cons, hd, Option.map_some', List.map_cons]
      simpa using ih

/-! ### Store-level helper lemmas -/

theorem db_setDb_self (st : SledStore) (s : Status) (t : Sled.Tree) :
    (st.setDb s t).db s = t := by
  cases s <;> rfl

theorem db_setDb_of_ne (st : SledStore) {s s' : Status} (t : Sled.Tree)
    (h : s' ≠ s) : (st.setDb s t).db s' = st.db s' := by
  cases s <;> cases s' <;> first | rfl | exact absurd rfl h

theorem setDb_db_self (st : SledStore) (s : Status) :
    st.setDb s (st.db s) = st := by
  cases s <;> rfl

/-- The value the façade `get` reports out of a single table when the engine
does not fault: the stored bytes under the CBOR key, decoded, with both the
absent case and the undecodable case collapsing to `none`. -/
def lookupTable (t : Sled.Tree) (height : Nat) : Option LightBlock :=
  match treeGet t (cborNat height) with
  | some bs => decodeLB bs
  | none => none

theorem get_nil (st : SledStore) (height : Nat) (status : Status) :
    (st.get [] height status).1 = lookupTable (st.db status) height := by
  simp only [SledStore.get, KeyValueDb.get, takeFault, lookupTable]
  cases htg : treeGet (st.db status) (cborNat height) with
  | none => rfl
  | some bs => cases hd : decodeLB bs <;> simp [hd, Except.toOption]

theorem update_db (st : SledStore) (b : LightBlock) (s s' : Status) :
    ((st.update [] b s).1).db s' =
      if s' = s then treeInsert (st.db s) (cborNat b.height) (encodeLB b)
      else treeRemove (st.db s') (cborNat b.height) := by
  cases s <;> cases s' <;> rfl

theorem insert_db (st : SledStore) (b : LightBlock) (s s' : Status) :
    ((st.insert [] b s).1).db s' =
      if s' = s then treeInsert (st.db s) (cborNat b.height) (encodeLB b)
      else st.db s' := by
  cases s <;> cases s' <;> rfl

theorem remove_db (st : SledStore) (height : Nat) (s s' : Status) :
    ((st.remove [] height s).1).db s' =
      if s' = s then treeRemove (st.db s) (cborNat height)
      else st.db s' := by
  cases s <;> cases s' <;> rfl

/-- Exclusivity at one height: at most one of the four status tables holds an
entry under that height's key. -/
def ExclusiveAt (st : SledStore) (h : Nat) : Prop :=
  ∀ s₁ s₂ : Status, treeGet (st.db s₁) (cborNat h) ≠ none →
    treeGet (st.db s₂) (cborNat h) ≠ none → s₁ = s₂

/-! ### Error-path lemmas for the typed-table layer -/

theorem kvInsert_error_tree (t : Sled.Tree) (fs : List Bool) (k : Nat)
    (v : LightBlock) (e : Error)
    (h : (KeyValueDb.insert t fs k v).1 = Except.error e) :
    (KeyValueDb.insert t fs k v).2.1 = t := by
  unfold KeyValueDb.insert at h ⊢
  rcases hfp : takeFault fs with ⟨f, fs'⟩
  cases f
  · rw [hfp] at h
    simp at h
  · rfl

theorem kvRemove_error_tree (t : Sled.Tree) (fs : List Bool) (k : Nat)
    (e : Error) (h : (KeyValueDb.remove t fs k).1 = Except.error e) :
    (KeyValueDb.remove t fs k).2.1 = t := by
  unfold KeyValueDb.remove at h ⊢
  rcases hfp : takeFault fs with ⟨f, fs'⟩
  cases f
  · rw [hfp] at h
    simp at h
  · rfl

/-! ### The claims -/

/-- C1: Exclusivity via update: with no engine fault, after `update(b, s)`
the height of `b` is present in status `s`'s table (`get` returns `b`) and
absent from each of the other three status tables; moreover the updated
state is exclusive at `height(b)`, and exclusivity of every other height is
preserved, so states whose cross-status transitions all went through
`update` hold each height in at most one table. -/
theorem c1_update_exclusivity (st : SledStore) (b : LightBlock) (s : Status)
    (hh : b.height < 2 ^ 64) (hp : b.payload < 2 ^ 64) :
    (((st.update [] b s).1.get [] b.height s).1 = some b)
    ∧ (∀ s', s' ≠ s → ((st.update [] b s).1.get [] b.height s').1 = none)
    ∧ ExclusiveAt (st.update [] b s).1 b.height
    ∧ (∀ h', h' < 2 ^ 64 → h' ≠ b.height → ExclusiveAt st h' →
        ExclusiveAt (st.update [] b s).1 h') := by
  refine ⟨?_, ?_, ?_, ?_⟩
  · rw [get_nil, update_db, if_pos rfl]
    simp [lookupTable, treeGet_insert_self, decodeLB_encodeLB hh hp]
  · intro s' hs'
    rw [get_nil, update_db, if_neg hs']
    simp [lookupTable, treeGet_remove_self]
  · intro s₁ s₂ h₁ h₂
    rw [update_db] at h₁ h₂
    by_cases e₁ : s₁ = s
    · by_cases e₂ : s₂ = s
      · rw [e₁, e₂]
      · rw [if_neg e₂, treeGet_remove_self] at h₂
        exact absurd rfl h₂
    · rw [if_neg e₁, treeGet_remove_self] at h₁
      exact absurd rfl h₁
  · intro h' hlt hne hex s₁ s₂ h₁ h₂
    have hk : cborNat h' ≠ cborNat b.height := fun hc => hne (cborNat_inj hlt hh hc)
    rw [update_db] at h₁ h₂
    apply hex s₁ s₂
    · by_cases e₁ : s₁ = s
      · rw [if_pos e₁, treeGet_insert_of_ne _ _ hk] at h₁
        rw [e₁]
        exact h₁
      · rw [if_neg e₁, treeGet_remove_of_ne _ hk] at h₁
        exact h₁
    · by_cases e₂ : s₂ = s
      · rw [if_pos e₂, treeGet_insert_of_ne _ _ hk] at h₂
        rw [e₂]
        exact h₂
      · rw [if_neg e₂, treeGet_remove_of_ne _ hk] at h₂
        exact h₂

/-- C2: Round-trip: with no engine fault, `insert(b, s)` then
`get(height(b), s)` returns `b`; and from any state, `remove(height(b), s)`
then `get(height(b), s)` returns `none`. -/
theorem c2_round_trip (st : SledStore) (b : LightBlock) (s : Status)
    (hh : b.height < 2 ^ 64) (hp : b.payload < 2 ^ 64) :
    (((st.insert [] b s).1).get [] b.height s).1 = some b
    ∧ ∀ st₂ : SledStore, (((st₂.remove [] b.height s).1).get [] b.height s).1 = none := by
  constructor
  · rw [get_nil, insert_db, if_pos rfl]
    simp [lookupTable, treeGet_insert_self, decodeLB_encodeLB hh hp]
  · intro st₂
    rw [get_nil, remove_db, if_pos rfl]
    simp [lookupTable, treeGet_remove_self]

/-- C7: get is status-scoped: the result of `get(h, s)` depends only on
status `s`'s table, and is `none` whenever `h`'s key is absent from that
table, whatever the other three tables hold. -/
theorem c7_get_status_scoped :
    (∀ st₁ st₂ : SledStore, ∀ h s, st₁.db s = st₂.db s →
        (st₁.get [] h s).1 = (st₂.get [] h s).1)
    ∧ (∀ st : SledStore, ∀ h s, treeGet (st.db s) (cborNat h) = none →
        (st.get [] h s).1 = none) := by
  constructor
  · intro st₁ st₂ h s he
    rw [get_nil, get_nil, he]
  · intro st h s habs
    rw [get_nil]
    simp [lookupTable, habs]

/-- C3: latest: for every store whose rows all decode, `latest(s)` returns a
stored block of maximum height in status `s`'s table and is `none` exactly
when that table is empty; and after inserting blocks at heights
5, 1, 900, 42 into Verified, `latest(Verified)` is the height-900 block. -/
theorem c3_latest :
    (∀ st : SledStore, ∀ s : Status,
      (∀ kv ∈ st.db s, (decodeLB kv.2).isSome = true) →
      ((st.latest s = none ↔ st.db s = [])
        ∧ ∀ b, st.latest s = some b →
            b ∈ st.all s ∧ ∀ b' ∈ st.all s, b'.height ≤ b.height))
    ∧ (((((SledStore.new.insert [] ⟨5, 0⟩ .verified).1.insert []
          ⟨1, 0⟩ .verified).1.insert [] ⟨900, 0⟩ .verified).1.insert []
          ⟨42, 0⟩ .verified).1.latest .verified = some ⟨900, 0⟩) := by
  constructor
  · intro st s hdec
    constructor
    · cases htb : st.db s with
      | nil => simp [SledStore.latest, htb, KeyValueDb.iter, maxByHeight]
      | cons kv rest =>
        have h1 : (decodeLB kv.2).isSome = true := hdec kv (by rw [htb]; exact List.mem_cons_self _ _)
        rcases Option.isSome_iff_exists.mp h1 with ⟨b, hb⟩
        have h2 : KeyValueDb.iter (st.db s) = b :: KeyValueDb.iter rest := by
          rw [htb, kvIter_cons_some hb]
        constructor
        · intro hl
          exfalso
          simp only [SledStore.latest] at hl
          rw [maxByHeight_eq_none_iff, h2] at hl
          exact List.cons_ne_nil _ _ hl
        · intro he
          exact absurd he (List.cons_ne_nil _ _)
    · intro b hb
      exact ⟨maxByHeight_mem hb, maxByHeight_le hb⟩
  · decide

/-- C4: Facade error discarding: an error returned by the typed-table layer
(engine fault or decode failure) is never propagated by the status-
partitioned store: `get` degrades to `none`, and `insert`, `remove` and a
fully faulted `update` leave the state unchanged. -/
theorem c4_facade_error_discarding :
    (∀ st : SledStore, ∀ fs h s e, (KeyValueDb.get (st.db s) fs h).1 = Except.error e →
        (st.get fs h s).1 = none)
    ∧ (∀ st : SledStore, ∀ fs b s e,
        (KeyValueDb.insert (st.db s) fs b.height b).1 = Except.error e →
        (st.insert fs b s).1 = st)
    ∧ (∀ st : SledStore, ∀ fs h s e,
        (KeyValueDb.remove (st.db s) fs h).1 = Except.error e →
        (st.remove fs h s).1 = st)
    ∧ (∀ st : SledStore, ∀ fs b s,
        (st.update (true :: true :: true :: true :: fs) b s).1 = st) := by
  refine ⟨?_, ?_, ?_, ?_⟩
  · intro st fs h s e he
    have eq1 : (st.get fs h s).1 = (KeyValueDb.get (st.db s) fs h).1.toOption.join := rfl
    rw [eq1, he]
    rfl
  · intro st fs b s e he
    have eq1 : (st.insert fs b s).1
        = st.setDb s (KeyValueDb.insert (st.db s) fs b.height b).2.1 := rfl
    rw [eq1, kvInsert_error_tree _ _ _ _ _ he, setDb_db_self]
  · intro st fs h s e he
    have eq1 : (st.remove fs h s).1
        = st.setDb s (KeyValueDb.remove (st.db s) fs h).2.1 := rfl
    rw [eq1, kvRemove_error_tree _ _ _ _ he, setDb_db_self]
  · intro st fs b s
    cases s <;> rfl

/-- C5: Corrupt-row tolerance of scans: the typed-table scan is total, a row
whose value bytes fail to decode is omitted while every decodable row is
yielded (a corrupt row in the middle never aborts the scan), and `all`
is exactly that scan of the status table. -/
theorem c5_iterate_skips_corrupt :
    (∀ t₁ t₂ : Sled.Tree, ∀ c : Bytes × Bytes, decodeLB c.2 = none →
        KeyValueDb.iter (t₁ ++ c :: t₂) = KeyValueDb.iter t₁ ++ KeyValueDb.iter t₂)
    ∧ (∀ t₁ t₂ : Sled.Tree, ∀ c : Bytes × Bytes, ∀ b, decodeLB c.2 = some b →
        KeyValueDb.iter (t₁ ++ c :: t₂) = KeyValueDb.iter t₁ ++ b :: KeyValueDb.iter t₂)
    ∧ (∀ st : SledStore, ∀ s, st.all s = KeyValueDb.iter (st.db s)) := by
  refine ⟨?_, ?_, ?_⟩
  · intro t₁ t₂ c hc
    rw [kvIter_append, kvIter_cons_none hc]
  · intro t₁ t₂ c b hc
    rw [kvIter_append, kvIter_cons_some hc]
  · intro st s
    rfl

/-- C6: insert touches only its own table: the other three status tables are
unchanged (so an entry for `height(b)` held under a different status is not
removed), and with no engine fault the block lands in exactly status `s`'s
table. -/
theorem c6_insert_own_table (st : SledStore) (fs : List Bool) (b : LightBlock)
    (s : Status) :
    (∀ s', s' ≠ s → ((st.insert fs b s).1).db s' = st.db s')
    ∧ (∀ s' h₂, s' ≠ s → (((st.insert fs b s).1).get [] h₂ s').1 = (st.get [] h₂ s').1)
    ∧ (b.height < 2 ^ 64 → b.payload < 2 ^ 64 →
        (((st.insert [] b s).1).get [] b.height s).1 = some b) := by
  have hframe : ∀ s', s' ≠ s → ((st.insert fs b s).1).db s' = st.db s' := by
    intro s' hs'
    have eq1 : (st.insert fs b s).1
        = st.setDb s (KeyValueDb.insert (st.db s) fs b.height b).2.1 := rfl
    rw [eq1, db_setDb_of_ne _ _ hs']
  refine ⟨hframe, ?_, ?_⟩
  · intro s' h₂ hs'
    rw [get_nil, get_nil, hframe s' hs']
  · intro hh hp
    rw [get_nil, insert_db, if_pos rfl]
    simp [lookupTable, treeGet_insert_self, decodeLB_encodeLB hh hp]

/-- C8: remove on an absent key: when the key is absent and the engine does
not fault, the typed-table `remove` returns success and leaves the table
unchanged; and `remove` returns a store error only when the engine itself
faulted. -/
theorem c8_remove_absent :
    (∀ t : Sled.Tree, ∀ fs k, treeGet t (cborNat k) = none → (takeFault fs).1 = false →
        KeyValueDb.remove t fs k = (Except.ok (), t, (takeFault fs).2))
    ∧ (∀ t : Sled.Tree, ∀ fs k e, (KeyValueDb.remove t fs k).1 = Except.error e →
        (takeFault fs).1 = true) := by
  constructor
  · intro t fs k habs hf
    unfold KeyValueDb.remove
    rcases hfp : takeFault fs with ⟨f, fs'⟩
    rw [hfp] at hf
    simp only at hf
    subst hf
    simp [treeRemove_of_absent habs, hfp]
  · intro t fs k e herr
    unfold KeyValueDb.remove at herr
    rcases hfp : takeFault fs with ⟨f, fs'⟩
    cases f
    · rw [hfp] at herr
      simp at herr
    · rfl

/-- C9: Scan order: on a sorted table the values yielded by the typed-table
scan are the value projection of a row sequence whose encoded keys are
strictly ascending in byte-lexicographic order; the empty table is sorted
and both engine mutations preserve sortedness, so every reachable table
state is scanned in ascending key-byte order. -/
theorem c9_scan_order :
    (∀ t : Sled.Tree, SortedTree t →
        ((iterRows t).map Prod.fst).Pairwise (fun a b => bytesLt a b = true)
        ∧ KeyValueDb.iter t = (iterRows t).map Prod.snd)
    ∧ SortedTree []
    ∧ (∀ t k v, SortedTree t → SortedTree (treeInsert t k v))
    ∧ (∀ t k, SortedTree t → SortedTree (treeRemove t k)) := by
  refine ⟨?_, sortedTree_nil, ?_, ?_⟩
  · intro t ht
    constructor
    · have hp : (t.map Prod.fst).Pairwise (fun a b => bytesLt a b = true) := by
        rw [List.pairwise_map]
        exact ht
      exact List.Pairwise.sublist (iterRows_keys_sublist t) hp
    · exact kvIter_eq_iterRows t
  · intro t k v ht
    exact SortedTree.insert k v ht
  · intro t k ht
    exact SortedTree.remove k ht

/-- C10: update is frame-preserving on other heights: for any height other
than `height(b)` (both within the `u64` key range) and any status, the entry
under that height — at the table level and as seen through `get` — is the
same before and after `update(b, s)`. -/
theorem c10_update_frame (st : SledStore) (b : LightBlock) (s : Status)
    (h' : Nat) (s'' : Status) (hne : h' ≠ b.height)
    (hh : b.height < 2 ^ 64) (hl : h' < 2 ^ 64) :
    treeGet (((st.update [] b s).1).db s'') (cborNat h')
      = treeGet (st.db s'') (cborNat h')
    ∧ (((st.update [] b s).1).get [] h' s'').1 = (st.get [] h' s'').1 := by
  have hk : cborNat h' ≠ cborNat b.height := fun hc => hne (cborNat_inj hl hh hc)
  have htree : treeGet (((st.update [] b s).1).db s'') (cborNat h')
      = treeGet (st.db s'') (cborNat h') := by
    rw [update_db]
    by_cases e : s'' = s
    · rw [if_pos e, treeGet_insert_of_ne _ _ hk, e]
    · rw [if_neg e, treeGet_remove_of_ne _ hk]
  refine ⟨htree, ?_⟩
  rw [get_nil, get_nil]
  simp only [lookupTable, htree]

/-! ### Witnesses -/

/-- C1 witness at a concrete store and block. -/
theorem c1_update_exclusivity_witness :
    ((SledStore.new.update [] ⟨100, 7⟩ .verified).1.get [] 100 .verified).1 = some ⟨100, 7⟩
    ∧ ((SledStore.new.update [] ⟨100, 7⟩ .verified).1.get [] 100 .trusted).1 = none :=
  have h := c1_update_exclusivity SledStore.new ⟨100, 7⟩ .verified (by norm_num) (by norm_num)
  ⟨h.1, h.2.1 .trusted (by decide)⟩

/-- C2 witness at a concrete store and block. -/
theorem c2_round_trip_witness :
    ((SledStore.new.insert [] ⟨5, 1⟩ .trusted).1.get [] 5 .trusted).1 = some ⟨5, 1⟩
    ∧ ((SledStore.new.remove [] 5 .trusted).1.get [] 5 .trusted).1 = none :=
  ⟨(c2_round_trip SledStore.new ⟨5, 1⟩ .trusted (by norm_num) (by norm_num)).1,
   (c2_round_trip SledStore.new ⟨5, 1⟩ .trusted (by norm_num) (by norm_num)).2 SledStore.new⟩

/-- C3 witness at the four-block store of the spec's example. -/
theorem c3_latest_witness :
    (((((SledStore.new.insert [] ⟨5, 0⟩ .verified).1.insert [] ⟨1, 0⟩ .verified).1.insert []
        ⟨900, 0⟩ .verified).1.insert [] ⟨42, 0⟩ .verified).1.latest .verified = none
      ↔ ((((SledStore.new.insert [] ⟨5, 0⟩ .verified).1.insert [] ⟨1, 0⟩ .verified).1.insert []
        ⟨900, 0⟩ .verified).1.insert [] ⟨42, 0⟩ .verified).1.db .verified = []) :=
  (c3_latest.1 _ .verified (by decide)).1

/-- C4 witness: one injected engine fault for each operation. -/
theorem c4_facade_error_discarding_witness :
    (SledStore.new.get [true] 3 .failed).1 = none
    ∧ (SledStore.new.insert [true] ⟨3, 0⟩ .failed).1 = SledStore.new
    ∧ (SledStore.new.remove [true] 3 .failed).1 = SledStore.new
    ∧ (SledStore.new.update [true, true, true, true] ⟨3, 0⟩ .failed).1 = SledStore.new :=
  ⟨c4_facade_error_discarding.1 SledStore.new [true] 3 .failed (Error.store "engine") rfl,
   c4_facade_error_discarding.2.1 SledStore.new [true] ⟨3, 0⟩ .failed (Error.store "engine") rfl,
   c4_facade_error_discarding.2.2.1 SledStore.new [true] 3 .failed (Error.store "engine") rfl,
   c4_facade_error_discarding.2.2.2 SledStore.new [] ⟨3, 0⟩ .failed⟩

/-- C5 witness: a corrupt row between two decodable rows is skipped. -/
theorem c5_iterate_skips_corrupt_witness :
    KeyValueDb.iter (([([0], encodeLB ⟨1, 2⟩)] : Sled.Tree) ++ ([1], []) :: [([2], encodeLB ⟨3, 4⟩)])
      = KeyValueDb.iter ([([0], encodeLB ⟨1, 2⟩)] : Sled.Tree)
        ++ KeyValueDb.iter ([([2], encodeLB ⟨3, 4⟩)] : Sled.Tree) :=
  c5_iterate_skips_corrupt.1 [([0], encodeLB ⟨1, 2⟩)] [([2], encodeLB ⟨3, 4⟩)]
    (([1], []) : Bytes × Bytes) (by decide)

/-- C6 witness: inserting under Failed leaves Trusted untouched, and the
block lands under Failed. -/
theorem c6_insert_own_table_witness :
    (((SledStore.new.insert [] ⟨7, 0⟩ .trusted).1.insert [] ⟨7, 1⟩ .failed).1.db .trusted
      = ((SledStore.new.insert [] ⟨7, 0⟩ .trusted).1).db .trusted)
    ∧ ((SledStore.new.insert [] ⟨7, 1⟩ .failed).1.get [] 7 .failed).1 = some ⟨7, 1⟩ :=
  ⟨(c6_insert_own_table ((SledStore.new.insert [] ⟨7, 0⟩ .trusted).1) [] ⟨7, 1⟩ .failed).1
      .trusted (by decide),
   (c6_insert_own_table SledStore.new [] ⟨7, 1⟩ .failed).2.2 (by norm_num) (by norm_num)⟩

/-- C7 witness: a height stored only under Unverified is absent through
`get(·, Trusted)`. -/
theorem c7_get_status_scoped_witness :
    ((SledStore.new.insert [] ⟨9, 0⟩ .unverified).1.get [] 9 .trusted).1 = none :=
  c7_get_status_scoped.2 ((SledStore.new.insert [] ⟨9, 0⟩ .unverified).1) 9 .trusted (by decide)

/-- C8 witness: removing an absent key from a one-row table. -/
theorem c8_remove_absent_witness :
    KeyValueDb.remove ([([0], [7])] : Sled.Tree) [] 5
      = (Except.ok (), ([([0], [7])] : Sled.Tree), []) :=
  c8_remove_absent.1 [([0], [7])] [] 5 (by decide) rfl

/-- C9 witness: a sorted three-row table with a corrupt middle row. -/
theorem c9_scan_order_witness :
    ((iterRows ([([0], encodeLB ⟨1, 1⟩), ([1], []), ([2], encodeLB ⟨2, 2⟩)] : Sled.Tree)).map
        Prod.fst).Pairwise (fun a b => bytesLt a b = true)
    ∧ KeyValueDb.iter ([([0], encodeLB ⟨1, 1⟩), ([1], []), ([2], encodeLB ⟨2, 2⟩)] : Sled.Tree)
      = (iterRows ([([0], encodeLB ⟨1, 1⟩), ([1], []), ([2], encodeLB ⟨2, 2⟩)] : Sled.Tree)).map
          Prod.snd :=
  c9_scan_order.1 _ (by unfold SortedTree; decide)

/-- C10 witness: updating height 2 leaves height 1's Trusted entry intact. -/
theorem c10_update_frame_witness :
    treeGet ((((SledStore.new.insert [] ⟨1, 5⟩ .trusted).1.update [] ⟨2, 6⟩ .verified).1).db
        .trusted) (cborNat 1)
      = treeGet (((SledStore.new.insert [] ⟨1, 5⟩ .trusted).1).db .trusted) (cborNat 1)
    ∧ ((((SledStore.new.insert [] ⟨1, 5⟩ .trusted).1.update [] ⟨2, 6⟩ .verified).1).get []
          1 .trusted).1
      = (((SledStore.new.insert [] ⟨1, 5⟩ .trusted).1).get [] 1 .trusted).1 :=
  c10_update_frame ((SledStore.new.insert [] ⟨1, 5⟩ .trusted).1) ⟨2, 6⟩ .verified 1 .trusted
    (by decide) (by decide) (by decide)
